import Mathlib

set_option maxHeartbeats 1000000

/-!
Verification development for the semantic planning layer of a
schema-to-source compiler.  Part one embeds the extension-dependency
closure of `objectivec/file.cc` (`FileContainsExtensions`,
`FileGenerator::CommonState::CollectMinimalFileDepsContainingExtensionsInternal`
and `CollectMinimalFileDepsContainingExtensions`).  Part two embeds the
planning decisions of `java/message_builder.cc` (dispatch table, decode
loop, merge sequence, presence-bit word counts and the required-field
validation tree).
-/

/-- A message descriptor reduced to the data that
`MessageContainsExtensions` (objectivec/file.cc) reads: the number of
extensions declared directly on the message (`extension_count`) and the
nested message types (`nested_type`). -/
inductive Descriptor : Type where
  | mk : Nat → List Descriptor → Descriptor

/-- Accessor for the extension count of a descriptor. -/
def Descriptor.extension_count : Descriptor → Nat
  | .mk ec _ => ec

/-- Accessor for the nested message types of a descriptor. -/
def Descriptor.nested_type : Descriptor → List Descriptor
  | .mk _ ns => ns

mutual

/-- `MessageContainsExtensions` of objectivec/file.cc: true when the
message declares an extension itself or some nested message (at any
depth) does. -/
def MessageContainsExtensions : Descriptor → Bool
  | .mk ec nested => decide (0 < ec) || anyNestedContainsExtensions nested

/-- The loop body of `MessageContainsExtensions` over the nested types
(and of `FileContainsExtensions` over a file's top-level messages). -/
def anyNestedContainsExtensions : List Descriptor → Bool
  | [] => false
  | m :: ms => MessageContainsExtensions m || anyNestedContainsExtensions ms

end

/-- A file descriptor reduced to what the closure algorithm reads: its
name (used only for the final deterministic ordering), the number of
top-level extensions, its top-level message types, and its direct
dependencies.  Dependencies are file identifiers: indices into a graph
`g : Nat → FileDecl`. -/
structure FileDecl where
  name : String
  extension_count : Nat
  message_type : List Descriptor
  deps : List Nat

/-- `FileContainsExtensions` of objectivec/file.cc: true when the file
declares a top-level extension or any of its messages (at any nesting
depth) declares one. -/
def FileContainsExtensions (f : FileDecl) : Bool :=
  decide (0 < f.extension_count) || anyNestedContainsExtensions f.message_type

/-- The import graph is acyclic; we realize the upstream guarantee (the
spec: "The import graph is acyclic") by a topological numbering: every
direct dependency has a strictly smaller file identifier. -/
def AcyclicGraph (g : Nat → FileDecl) : Prop :=
  ∀ i, ∀ d ∈ (g i).deps, d < i

/-- `FileGenerator::CommonState::MinDepsEntry` of objectivec/file.cc. -/
structure MinDepsEntry where
  has_extensions : Bool
  min_deps : Finset Nat
  covered_deps : Finset Nat
deriving DecidableEq

/-- The three collector sets built by the dependency loop of
`CollectMinimalFileDepsContainingExtensionsInternal`. -/
structure Collector where
  min_deps : Finset Nat
  covered_deps : Finset Nat
  to_prune : Finset Nat
deriving DecidableEq

/-- One iteration of the dependency loop of
`CollectMinimalFileDepsContainingExtensionsInternal`: fold the dep's
covered set into the covered collector and the prune set; if the dep has
extensions, add the dep itself to the min collector and its min set to
both the prune set and the covered collector, otherwise fold the dep's
min set into the min collector. -/
def collectStep (info : MinDepsEntry) (d : Nat) (c : Collector) : Collector :=
  let covered := c.covered_deps ∪ info.covered_deps
  let prune := c.to_prune ∪ info.covered_deps
  if info.has_extensions then
    ⟨insert d c.min_deps, covered ∪ info.min_deps, prune ∪ info.min_deps⟩
  else
    ⟨c.min_deps ∪ info.min_deps, covered, prune⟩

/-- `CollectMinimalFileDepsContainingExtensionsInternal` of
objectivec/file.cc.  The recursion is on a fuel argument; the acyclicity
of the import graph (every dependency index is smaller than the file's
index) guarantees that fuel `i + 1` is enough for file `i`, so the
out-of-fuel branch is unreachable in every theorem below.  The
memoization cache of the C++ is a pure caching device and does not
change the computed entry, so it is not modelled. -/
def collectInternalF (g : Nat → FileDecl) : Nat → Nat → MinDepsEntry
  | 0, i => ⟨FileContainsExtensions (g i), ∅, ∅⟩
  | fuel + 1, i =>
    let c := (g i).deps.foldl
      (fun c d => collectStep (collectInternalF g fuel d) d c) ⟨∅, ∅, ∅⟩
    let file_has_exts := FileContainsExtensions (g i)
    if c.to_prune = ∅ ∨ (g i).deps.length = 1 then
      ⟨file_has_exts, c.min_deps, c.covered_deps⟩
    else
      ⟨file_has_exts, c.min_deps \ c.to_prune, c.covered_deps⟩

/-- The cached `MinDepsEntry` of a file: the result of
`CollectMinimalFileDepsContainingExtensionsInternal` with enough fuel. -/
def minDepsEntry (g : Nat → FileDecl) (i : Nat) : MinDepsEntry :=
  collectInternalF g (i + 1) i

/-- The transitive min-dep chain of a file (fueled): everything
reachable by repeatedly stepping through `min_deps` of the cached
entries. -/
def minChainF (g : Nat → FileDecl) : Nat → Nat → Finset Nat
  | 0, _ => ∅
  | fuel + 1, i =>
    (minDepsEntry g i).min_deps ∪
      (minDepsEntry g i).min_deps.biUnion (minChainF g fuel)

/-- The transitive min-dep chain of a file, with enough fuel for an
acyclic graph. -/
def minChain (g : Nat → FileDecl) (i : Nat) : Finset Nat :=
  minChainF g (i + 1) i

/-- `FileDescriptorsOrderedByName` of objectivec/file.cc.  The C++
comparator is the strict order on file names; sorting with it produces
a list nondecreasing in name, which is what this (non-strict) ordering
relation expresses. -/
def FileDescriptorsOrderedByName (g : Nat → FileDecl) (a b : Nat) : Prop :=
  (g a).name ≤ (g b).name

instance (g : Nat → FileDecl) : DecidableRel (FileDescriptorsOrderedByName g) :=
  fun a b => inferInstanceAs (Decidable ((g a).name ≤ (g b).name))

instance (g : Nat → FileDecl) : IsTotal Nat (FileDescriptorsOrderedByName g) :=
  ⟨fun a b => le_total (g a).name (g b).name⟩

instance (g : Nat → FileDecl) : IsTrans Nat (FileDescriptorsOrderedByName g) :=
  ⟨fun _ _ _ => le_trans⟩

/-- `CollectMinimalFileDepsContainingExtensions` of objectivec/file.cc:
the cached min set, sorted by file name ("Sort the list since pointer
order isn't stable across runs").  The enumeration of the hash set into
a vector is modelled by the canonical enumeration `Finset.sort`; the
determinism theorem below shows any other enumeration order gives the
same answer. -/
def CollectMinimalFileDepsContainingExtensions (g : Nat → FileDecl)
    (i : Nat) : List Nat :=
  List.insertionSort (FileDescriptorsOrderedByName g)
    ((minDepsEntry g i).min_deps.sort (· ≤ ·))

/-- The step function of the dependency loop at a given fuel. -/
def stepf (g : Nat → FileDecl) (fuel : Nat) : Collector → Nat → Collector :=
  fun c d => collectStep (collectInternalF g fuel d) d c

/-- The dependency loop of
`CollectMinimalFileDepsContainingExtensionsInternal`, starting from the
three empty collectors. -/
def depsFold (g : Nat → FileDecl) (fuel : Nat) (deps : List Nat) : Collector :=
  deps.foldl (stepf g fuel) ⟨∅, ∅, ∅⟩

/-- The scenario graph of C1: file 0 is `B` (declares an extension, no
imports), file 1 is `C` (imports `B`, no extensions of its own), file 2
is `A` (imports `B` and `C`). -/
def gC1 : Nat → FileDecl := fun i =>
  match i with
  | 0 => ⟨"b.proto", 1, [], []⟩
  | 1 => ⟨"c.proto", 0, [], [0]⟩
  | 2 => ⟨"a.proto", 0, [], [0, 1]⟩
  | _ => ⟨"unused.proto", 0, [], []⟩

/-- Witness graph for C2/C9: two extension-declaring leaves imported by
a common root. -/
def gTwoRoots : Nat → FileDecl := fun i =>
  match i with
  | 0 => ⟨"x.proto", 1, [], []⟩
  | 1 => ⟨"y.proto", 1, [], []⟩
  | 2 => ⟨"z.proto", 0, [], [0, 1]⟩
  | _ => ⟨"w.proto", 0, [], []⟩

/-- Spec-side predicate for C10: the message itself, or some message
nested under it at any depth, declares an extension. -/
inductive DeclaresExtensionDeep : Descriptor → Prop where
  | here (ec : Nat) (nested : List Descriptor) :
      0 < ec → DeclaresExtensionDeep (.mk ec nested)
  | nest (ec : Nat) (nested : List Descriptor) (m : Descriptor) :
      m ∈ nested → DeclaresExtensionDeep m → DeclaresExtensionDeep (.mk ec nested)

/-!
Part two: the planning decisions of `java/message_builder.cc`.
-/

/-- Protobuf field types, as in the descriptor model consumed by the
generator.  Message and group types carry the index of their message
type in a type table `T : Nat → MessageSpec`. -/
inductive FieldType : Type where
  | double | float | int64 | uint64 | int32 | fixed64 | fixed32 | boolean
  | string | group (t : Nat) | message (t : Nat) | bytes | uint32 | enum
  | sfixed32 | sfixed64 | sint32 | sint64
deriving DecidableEq

/-- Field labels of the proto2 descriptor model. -/
inductive Label : Type where
  | required | optional | repeated
deriving DecidableEq

/-- Modelled from the spec: `WireFormat::WireTypeForFieldType`
(wire_format.h, outside this source slice) — the wire type determined by
a field's declared kind: varint 0, fixed64 1, length-delimited 2,
start-group 3, fixed32 5. -/
def WireTypeForFieldType : FieldType → Nat
  | .double => 1
  | .float => 5
  | .int64 => 0
  | .uint64 => 0
  | .int32 => 0
  | .fixed64 => 1
  | .fixed32 => 5
  | .boolean => 0
  | .string => 2
  | .group _ => 3
  | .message _ => 2
  | .bytes => 2
  | .uint32 => 0
  | .enum => 0
  | .sfixed32 => 5
  | .sfixed64 => 1
  | .sint32 => 0
  | .sint64 => 0

/-- Modelled from the spec: `WireFormatLite::MakeTag` (outside this
source slice) — the wire tag packs the field number above the 3-bit wire
type: `(number << 3) | wire_type`, written arithmetically since every
wire type is below 8. -/
def MakeTag (number wire_type : Nat) : Nat :=
  number * 8 + wire_type

/-- The `WIRETYPE_LENGTH_DELIMITED` constant used for packed encodings. -/
def WIRETYPE_LENGTH_DELIMITED : Nat := 2

/-- Modelled from the spec: which declared types admit the packed
encoding (every scalar kind; strings, bytes, groups and messages do
not). -/
def IsTypePackable : FieldType → Bool
  | .string => false
  | .group _ => false
  | .message _ => false
  | .bytes => false
  | _ => true

/-- A field as seen by the message-builder generator.  `bitsBuilder` and
`bitsMessage` are the per-field results of the external field-generator
capabilities `GetNumBitsForBuilder` and `GetNumBitsForMessage`;
`packed_option` is the field's declared `[packed = ...]` option,
which the dispatch-table builder deliberately ignores;
`isOneofMember` is `IsRealOneof`. -/
structure JField where
  number : Nat
  ftype : FieldType
  label : Label
  packed_option : Bool
  isOneofMember : Bool
  bitsBuilder : Nat
  bitsMessage : Nat
deriving DecidableEq

/-- `FieldDescriptor::is_packable`: repeated and of a packable type. -/
def JField.is_packable (f : JField) : Bool :=
  (f.label == Label.repeated) && IsTypePackable f.ftype

/-- A message as seen by the message-builder generator: fields in
declaration order, the real oneofs (by identifier), the number of
extension ranges, and the map-entry marker of the descriptor. -/
structure MessageSpec where
  fields : List JField
  oneofs : List Nat
  extension_range_count : Nat
  isMapEntry : Bool
deriving DecidableEq

/-- Modelled from the spec: `SortFieldsByNumber` (java/helpers, outside
this source slice) — the fields ordered by ascending field number. -/
def SortFieldsByNumber (fields : List JField) : List JField :=
  List.insertionSort (fun a b => a.number ≤ b.number) fields

/-- The action attached to a dispatch-table entry: parse one field from
its natural encoding, or parse the packed form of a field. -/
inductive ParseAction : Type where
  | parseField (f : JField)
  | parsePacked (f : JField)
deriving DecidableEq

/-- A dispatch-table entry: a wire tag and the parse action emitted for
that tag (one `case` of the emitted `switch`). -/
structure DispatchEntry where
  tag : Nat
  action : ParseAction
deriving DecidableEq

/-- `MessageBuilderGenerator::GenerateBuilderFieldParsingCase`: the
entry for a field's natural (per-element) encoding. -/
def GenerateBuilderFieldParsingCase (f : JField) : DispatchEntry :=
  ⟨MakeTag f.number (WireTypeForFieldType f.ftype), ParseAction.parseField f⟩

/-- `MessageBuilderGenerator::GenerateBuilderPackedFieldParsingCase`:
"To make packed = true wire compatible, we generate parsing code from a
packed version of this field regardless of field->options().packed()."
The tag always uses the length-delimited wire type. -/
def GenerateBuilderPackedFieldParsingCase (f : JField) : DispatchEntry :=
  ⟨MakeTag f.number WIRETYPE_LENGTH_DELIMITED, ParseAction.parsePacked f⟩

/-- `MessageBuilderGenerator::GenerateBuilderFieldParsingCases`: for
each field in field-number order, one natural-encoding entry, plus one
packed-encoding entry when the field is packable. -/
def GenerateBuilderFieldParsingCases (msg : MessageSpec) : List DispatchEntry :=
  (SortFieldsByNumber msg.fields).flatMap fun f =>
    GenerateBuilderFieldParsingCase f ::
      (if f.is_packable then [GenerateBuilderPackedFieldParsingCase f] else [])

/-- Lookup of a tag in the dispatch table (the emitted `switch` on the
tag). -/
def lookupTag (table : List DispatchEntry) (t : Nat) : Option ParseAction :=
  (table.find? fun e => e.tag == t).map DispatchEntry.action

/-- The decode loop emitted by
`MessageBuilderGenerator::GenerateBuilderParsingMethods`, as a function
of the abstract stream of tags.  Reading past the end of input yields
tag 0, as `readTag` does at EOF, so an exhausted stream ends the loop;
tag 0 ends the loop successfully; a known tag runs the field's parse
action (whose failure is propagated); an unknown tag is handed to the
generic unknown-field handler (`parseUnknownField`), and a
non-continuing result ("was an endgroup tag") ends the loop
successfully. -/
def decodeLoop {σ ε : Type} (table : List DispatchEntry)
    (handler : Nat → σ → σ × Bool)
    (fieldAction : ParseAction → σ → Except ε σ) :
    List Nat → σ → Except ε σ
  | [], s => Except.ok s
  | t :: rest, s =>
    if t = 0 then Except.ok s
    else
      match lookupTag table t with
      | some a =>
        match fieldAction a s with
        | Except.ok s2 => decodeLoop table handler fieldAction rest s2
        | Except.error e => Except.error e
      | none =>
        let r := handler t s
        if r.2 then decodeLoop table handler fieldAction rest r.1
        else Except.ok r.1

/-- One merge action of the emitted `mergeFrom(other)` body
(`MessageBuilderGenerator::GenerateCommonBuilderMethods`): a non-oneof
field merge, a oneof switch merge, the extension-field delegation
(`mergeExtensionFields`), or the unknown-field concatenation
(`mergeUnknownFields`). -/
inductive MergeAction : Type where
  | field (f : JField)
  | oneof (o : Nat)
  | extensions
  | unknowns
deriving DecidableEq

/-- The ordered merge sequence emitted by
`GenerateCommonBuilderMethods` for `mergeFrom(other)` (when generated
methods are enabled): every non-oneof field in declaration order, then
every oneof, then — only if the message has extension ranges — the
extension delegation, and finally the unknown-field concatenation. -/
def mergeActionSequence (msg : MessageSpec) : List MergeAction :=
  ((msg.fields.filter fun f => !f.isOneofMember).map MergeAction.field)
    ++ (msg.oneofs.map MergeAction.oneof)
    ++ (if 0 < msg.extension_range_count then [MergeAction.extensions] else [])
    ++ [MergeAction.unknowns]

/-- The emitted `mergeFrom(other)` as a function of an abstract builder
state: the guard `if (other == getDefaultInstance()) return this;` comes
first, before any merge action runs; otherwise the merge actions are
applied in sequence by the external per-kind merge capability
`apply`. -/
def mergeFrom {σ : Type} (msg : MessageSpec) (isDefault : σ → Bool)
    (apply : MergeAction → σ → σ → σ) (dest source : σ) : σ :=
  if isDefault source then dest
  else (mergeActionSequence msg).foldl (fun d a => apply a d source) dest

/-- Extract the field of a field-merge action. -/
def mergeFieldOf : MergeAction → Option JField
  | .field f => some f
  | _ => none

/-- Extract the oneof of a oneof-merge action. -/
def mergeOneofOf : MergeAction → Option Nat
  | .oneof o => some o
  | _ => none

/-- The phase of a merge action in the emitted order. -/
def mergeActionRank : MergeAction → Nat
  | .field _ => 0
  | .oneof _ => 1
  | .extensions => 2
  | .unknowns => 3

/-- `totalBuilderBits` of `buildPartial` (and `totalBits` of
`Generate`): the sum of the per-field `GetNumBitsForBuilder` results. -/
def totalBuilderBits (msg : MessageSpec) : Nat :=
  (msg.fields.map JField.bitsBuilder).sum

/-- `totalBuilderInts`: `(totalBuilderBits + 31) / 32`. -/
def totalBuilderInts (msg : MessageSpec) : Nat :=
  (totalBuilderBits msg + 31) / 32

/-- `totalMessageBits` of `buildPartial`: the sum of the per-field
`GetNumBitsForMessage` results. -/
def totalMessageBits (msg : MessageSpec) : Nat :=
  (msg.fields.map JField.bitsMessage).sum

/-- `totalMessageInts`: `(totalMessageBits + 31) / 32`. -/
def totalMessageInts (msg : MessageSpec) : Nat :=
  (totalMessageBits msg + 31) / 32

/-- The bit-field words declared by `Generate`
(`for (int i = 0; i < totalInts; i++) print(GetBitFieldName(i))`): word
indices from 0 in allocation order. -/
def builderBitFieldDecls (msg : MessageSpec) : List Nat :=
  List.range (totalBuilderInts msg)

/-- The message type referenced by a field, when its Java type is
`JAVATYPE_MESSAGE` (message and group fields). -/
def fieldMessageType (f : JField) : Option Nat :=
  match f.ftype with
  | .message t => some t
  | .group t => some t
  | _ => none

/-- The message-type graph is acyclic (topologically numbered); the
fuel-based recursion of `hasRequiredFieldsF` terminates under it. -/
def TypeAcyclic (T : Nat → MessageSpec) : Prop :=
  ∀ i, ∀ f ∈ (T i).fields, ∀ t, fieldMessageType f = some t → t < i

/-- Modelled from the spec: the transitive may-contain-required-fields
oracle (`HasRequiredFields` of java/helpers, outside this source slice):
a message may need the completeness check when it has extension ranges
(extensions may carry required fields), a required field, or a
message-typed field whose type may itself need it, transitively.  The
fuel argument is a termination device; under `TypeAcyclic` the fuel
`i + 1` always suffices for type `i` and the out-of-fuel answer is never
reached. -/
def hasRequiredFieldsF (T : Nat → MessageSpec) : Nat → Nat → Bool
  | 0, _ => true
  | fuel + 1, i =>
    decide (0 < (T i).extension_range_count)
      || (T i).fields.any fun f =>
          (f.label == Label.required)
            || (match fieldMessageType f with
                | some t => hasRequiredFieldsF T fuel t
                | none => false)

/-- The may-contain-required-fields oracle with enough fuel. -/
def HasRequiredFields (T : Nat → MessageSpec) (i : Nat) : Bool :=
  hasRequiredFieldsF T (i + 1) i

/-- One step of the validation tree emitted by
`MessageBuilderGenerator::GenerateIsInitialized`. -/
inductive CheckStep : Type where
  | requiredPresence (f : JField)
  | recurseRequired (f : JField)
  | recurseOptional (f : JField)
  | recurseMapValues (f : JField)
  | recurseRepeated (f : JField)
  | checkExtensions
deriving DecidableEq

/-- `MessageBuilderGenerator::GenerateIsInitialized`: first a presence
check for every required field in declaration order; then, for every
message-typed field whose message type may transitively contain required
fields, a recursion shaped by the field's label (required: direct,
optional: guarded by presence, repeated: over map values for map
entries, else over elements); finally, when the message has extension
ranges, the extension validation. -/
def isInitFieldSteps (T : Nat → MessageSpec) (f : JField) : List CheckStep :=
  match fieldMessageType f with
  | some t =>
    if HasRequiredFields T t then
      match f.label with
      | .required => [CheckStep.recurseRequired f]
      | .optional => [CheckStep.recurseOptional f]
      | .repeated =>
        if (T t).isMapEntry then [CheckStep.recurseMapValues f]
        else [CheckStep.recurseRepeated f]
    else []
  | none => []

/-- The assembled validation tree of `GenerateIsInitialized`. -/
def GenerateIsInitialized (T : Nat → MessageSpec) (msg : MessageSpec) :
    List CheckStep :=
  ((msg.fields.filter fun f => f.label == Label.required).map
      CheckStep.requiredPresence)
    ++ (msg.fields.flatMap (isInitFieldSteps T))
    ++ (if 0 < msg.extension_range_count then [CheckStep.checkExtensions] else [])

/-- A validation step that recurses into field `f`. -/
def recursesInto (s : CheckStep) (f : JField) : Prop :=
  s = CheckStep.recurseRequired f ∨ s = CheckStep.recurseOptional f ∨
    s = CheckStep.recurseMapValues f ∨ s = CheckStep.recurseRepeated f

/-- The field number an entry's action refers to. -/
def actionFieldNumber : ParseAction → Nat
  | .parseField f => f.number
  | .parsePacked f => f.number

/-- The scenario message of the spec: `required int32 id = 1`,
`optional Msg child = 2`, `repeated int32 tags = 3` (packable). -/
def fId : JField := ⟨1, FieldType.int32, Label.required, false, false, 1, 1⟩

/-- The `child` field of the scenario message. -/
def fChild : JField := ⟨2, FieldType.message 0, Label.optional, false, false, 1, 1⟩

/-- The `tags` field of the scenario message. -/
def fTags : JField := ⟨3, FieldType.int32, Label.repeated, false, false, 0, 0⟩

/-- The scenario message itself. -/
def msgScenario : MessageSpec := ⟨[fId, fChild, fTags], [], 0, false⟩

/-- A trivially false default test and a destination-bumping merge
capability, used to witness that the default-source guard fires before
any action. -/
def isZeroState : Nat → Bool := fun s => s == 0

/-- A merge capability that visibly modifies the destination. -/
def bumpMerge : MergeAction → Nat → Nat → Nat := fun _ d _ => d + 1

/-- An unknown-field handler that never continues (end-of-group). -/
def unknownHandlerW : Nat → Nat → Nat × Bool := fun t s => (s + t, false)

/-- A field action that leaves the state unchanged. -/
def fieldActionW : ParseAction → Nat → Except Unit Nat := fun _ s => Except.ok s

/-- Witness type table for the validator: type 0 is an empty message,
type 1 holds one optional message field of type 0. -/
def msgLeaf : MessageSpec := ⟨[], [], 0, false⟩

/-- The parent message of the witness type table. -/
def msgParent : MessageSpec :=
  ⟨[⟨1, FieldType.message 0, Label.optional, false, false, 1, 1⟩], [], 0, false⟩

/-- The witness type table. -/
def TW : Nat → MessageSpec := fun i =>
  match i with
  | 1 => msgParent
  | _ => msgLeaf

theorem collectInternalF_succ_eq (g : Nat → FileDecl) (fuel i : Nat) :
    collectInternalF g (fuel + 1) i =
      if (depsFold g fuel (g i).deps).to_prune = ∅ ∨ (g i).deps.length = 1 then
        ⟨FileContainsExtensions (g i), (depsFold g fuel (g i).deps).min_deps,
          (depsFold g fuel (g i).deps).covered_deps⟩
      else
        ⟨FileContainsExtensions (g i),
          (depsFold g fuel (g i).deps).min_deps \ (depsFold g fuel (g i).deps).to_prune,
          (depsFold g fuel (g i).deps).covered_deps⟩ := rfl

theorem collectStep_eq_true {info : MinDepsEntry} {d : Nat} {c : Collector}
    (h : info.has_extensions = true) :
    collectStep info d c =
      ⟨insert d c.min_deps,
        (c.covered_deps ∪ info.covered_deps) ∪ info.min_deps,
        (c.to_prune ∪ info.covered_deps) ∪ info.min_deps⟩ := by
  simp [collectStep, h]

theorem collectStep_eq_false {info : MinDepsEntry} {d : Nat} {c : Collector}
    (h : info.has_extensions = false) :
    collectStep info d c =
      ⟨c.min_deps ∪ info.min_deps,
        c.covered_deps ∪ info.covered_deps,
        c.to_prune ∪ info.covered_deps⟩ := by
  simp [collectStep, h]

/-- A generic invariant-preservation principle for `List.foldl`. -/
theorem foldl_invariant {α β : Type} {P : α → Prop} (f : α → β → α)
    (l : List β) (init : α) (h0 : P init)
    (hstep : ∀ a, P a → ∀ b ∈ l, P (f a b)) : P (l.foldl f init) := by
  induction l generalizing init with
  | nil => exact h0
  | cons b t ih =>
    exact ih (f init b) (hstep init h0 b (by simp))
      (fun a ha c hc => hstep a ha c (by simp [hc]))

/-- The prune collector and the covered collector receive exactly the
same insertions, so they are always equal. -/
theorem depsFold_prune_eq_cov (g : Nat → FileDecl) (fuel : Nat) (deps : List Nat) :
    (depsFold g fuel deps).to_prune = (depsFold g fuel deps).covered_deps := by
  unfold depsFold
  refine foldl_invariant (P := fun c : Collector => c.to_prune = c.covered_deps) _ _ _ rfl ?_
  intro c hc d _
  rcases hext : (collectInternalF g fuel d).has_extensions with _ | _
  · rw [stepf, collectStep_eq_false hext]; simp [hc]
  · rw [stepf, collectStep_eq_true hext]; simp [hc]

/-- Every member of the min or covered set of a computed entry indexes a
file strictly below the file itself (acyclicity pushed through the
algorithm). -/
theorem collectInternalF_mem_lt (g : Nat → FileDecl) (hacyc : AcyclicGraph g) :
    ∀ fuel i x, (x ∈ (collectInternalF g fuel i).min_deps → x < i) ∧
      (x ∈ (collectInternalF g fuel i).covered_deps → x < i) := by
  intro fuel
  induction fuel with
  | zero =>
    intro i x
    constructor <;> intro h <;> simp [collectInternalF] at h
  | succ fuel ih =>
    intro i x
    have hfold : (∀ y ∈ (depsFold g fuel (g i).deps).min_deps, y < i) ∧
        (∀ y ∈ (depsFold g fuel (g i).deps).covered_deps, y < i) := by
      unfold depsFold
      refine foldl_invariant
        (P := fun c : Collector => (∀ y ∈ c.min_deps, y < i) ∧ (∀ y ∈ c.covered_deps, y < i))
        _ _ _ ⟨by simp, by simp⟩ ?_
      intro c hc d hd
      have hdi : d < i := hacyc i d hd
      rcases hext : (collectInternalF g fuel d).has_extensions with _ | _
      · rw [stepf, collectStep_eq_false hext]
        constructor
        · intro y hy
          rcases Finset.mem_union.mp hy with hy | hy
          · exact hc.1 y hy
          · exact lt_trans ((ih d y).1 hy) hdi
        · intro y hy
          rcases Finset.mem_union.mp hy with hy | hy
          · exact hc.2 y hy
          · exact lt_trans ((ih d y).2 hy) hdi
      · rw [stepf, collectStep_eq_true hext]
        constructor
        · intro y hy
          rcases Finset.mem_insert.mp hy with hy | hy
          · omega
          · exact hc.1 y hy
        · intro y hy
          rcases Finset.mem_union.mp hy with hy | hy
          · rcases Finset.mem_union.mp hy with hy | hy
            · exact hc.2 y hy
            · exact lt_trans ((ih d y).2 hy) hdi
          · exact lt_trans ((ih d y).1 hy) hdi
    rw [collectInternalF_succ_eq]
    split
    · exact ⟨fun h => hfold.1 x h, fun h => hfold.2 x h⟩
    · exact ⟨fun h => hfold.1 x (Finset.mem_sdiff.mp h).1, fun h => hfold.2 x h⟩

theorem minDepsEntry_mem_min_lt {g : Nat → FileDecl} (hacyc : AcyclicGraph g)
    {i x : Nat} (h : x ∈ (minDepsEntry g i).min_deps) : x < i :=
  (collectInternalF_mem_lt g hacyc (i + 1) i x).1 h

theorem minDepsEntry_mem_cov_lt {g : Nat → FileDecl} (hacyc : AcyclicGraph g)
    {i x : Nat} (h : x ∈ (minDepsEntry g i).covered_deps) : x < i :=
  (collectInternalF_mem_lt g hacyc (i + 1) i x).2 h

/-- With enough fuel, the fuel argument does not matter: the fueled
computation is the memoized recursion of the C++ on an acyclic graph. -/
theorem collectInternalF_fuel_irrel (g : Nat → FileDecl) (hacyc : AcyclicGraph g) :
    ∀ i a b, i < a → i < b → collectInternalF g a i = collectInternalF g b i := by
  intro i
  induction i using Nat.strong_induction_on with
  | _ i ih =>
    intro a b ha hb
    match a, b with
    | a + 1, b + 1 =>
      have hfold : depsFold g a (g i).deps = depsFold g b (g i).deps := by
        unfold depsFold
        apply List.foldl_ext
        intro c d hd
        have hdi : d < i := hacyc i d hd
        rw [stepf, stepf, ih d hdi a b (by omega) (by omega)]
      rw [collectInternalF_succ_eq, collectInternalF_succ_eq, hfold]

theorem collectInternalF_eq_minDepsEntry (g : Nat → FileDecl)
    (hacyc : AcyclicGraph g) {fuel i : Nat} (h : i < fuel) :
    collectInternalF g fuel i = minDepsEntry g i :=
  collectInternalF_fuel_irrel g hacyc i fuel (i + 1) h (by omega)

theorem minChainF_fuel_irrel (g : Nat → FileDecl) (hacyc : AcyclicGraph g) :
    ∀ i a b, i < a → i < b → minChainF g a i = minChainF g b i := by
  intro i
  induction i using Nat.strong_induction_on with
  | _ i ih =>
    intro a b ha hb
    match a, b with
    | a + 1, b + 1 =>
      simp only [minChainF]
      refine congrArg (fun s => (minDepsEntry g i).min_deps ∪ s) ?_
      refine Finset.biUnion_congr rfl ?_
      intro z hz
      have hzi : z < i := minDepsEntry_mem_min_lt hacyc hz
      exact ih z hzi a b (by omega) (by omega)

/-- The transitive min-dep chain unfolds one step at a time. -/
theorem minChain_unfold (g : Nat → FileDecl) (hacyc : AcyclicGraph g) (i : Nat) :
    minChain g i = (minDepsEntry g i).min_deps ∪
      (minDepsEntry g i).min_deps.biUnion (minChain g) := by
  unfold minChain
  simp only [minChainF]
  refine congrArg (fun s => (minDepsEntry g i).min_deps ∪ s) ?_
  refine Finset.biUnion_congr rfl ?_
  intro z hz
  have hzi : z < i := minDepsEntry_mem_min_lt hacyc hz
  exact minChainF_fuel_irrel g hacyc z i (z + 1) hzi (by omega)

/-- Key fold invariant: the transitive min-dep chain of every member of
the min collector is contained in the covered collector, provided the
same containment already holds entry-wise for every file below the
fuel bound. -/
theorem depsFold_minChain_sub (g : Nat → FileDecl) (hacyc : AcyclicGraph g)
    (fuel : Nat)
    (hP : ∀ d, d < fuel → ∀ z ∈ (minDepsEntry g d).min_deps,
      minChain g z ⊆ (minDepsEntry g d).covered_deps)
    (deps : List Nat) (hdeps : ∀ d ∈ deps, d < fuel) :
    ∀ X ∈ (depsFold g fuel deps).min_deps,
      minChain g X ⊆ (depsFold g fuel deps).covered_deps := by
  unfold depsFold
  refine foldl_invariant
    (P := fun c : Collector => ∀ X ∈ c.min_deps, minChain g X ⊆ c.covered_deps)
    _ _ _ ?_ ?_
  · intro X hX
    simp at hX
  · intro c hc d hd
    have hdf : d < fuel := hdeps d hd
    rw [stepf, collectInternalF_eq_minDepsEntry g hacyc hdf]
    rcases hext : (minDepsEntry g d).has_extensions with _ | _
    · rw [collectStep_eq_false hext]
      intro X hX
      rcases Finset.mem_union.mp hX with hX | hX
      · exact (hc X hX).trans Finset.subset_union_left
      · exact (hP d hdf X hX).trans Finset.subset_union_right
    · rw [collectStep_eq_true hext]
      intro X hX
      rcases Finset.mem_insert.mp hX with hX | hX
      · subst hX
        rw [minChain_unfold g hacyc X]
        refine Finset.union_subset ?_ ?_
        · exact Finset.subset_union_right
        · refine Finset.biUnion_subset.mpr ?_
          intro z hz
          refine (hP X hdf z hz).trans ?_
          exact Finset.subset_union_right.trans Finset.subset_union_left
      · exact (hc X hX).trans
          (Finset.subset_union_left.trans Finset.subset_union_left)

/-- Entry-level containment: the transitive min-dep chain of every
member of a file's cached `min_deps` is inside the file's cached
`covered_deps`. -/
theorem minChain_subset_cov (g : Nat → FileDecl) (hacyc : AcyclicGraph g) :
    ∀ i, ∀ X ∈ (minDepsEntry g i).min_deps,
      minChain g X ⊆ (minDepsEntry g i).covered_deps := by
  intro i
  induction i using Nat.strong_induction_on with
  | _ i ih =>
    have hfold := depsFold_minChain_sub g hacyc i
      (fun d hdi => ih d hdi) (g i).deps (fun d hd => hacyc i d hd)
    intro X hX
    have hcov : (minDepsEntry g i).covered_deps =
        (depsFold g i (g i).deps).covered_deps := by
      simp only [minDepsEntry, collectInternalF_succ_eq]
      split <;> rfl
    have hmin : (minDepsEntry g i).min_deps ⊆ (depsFold g i (g i).deps).min_deps := by
      simp only [minDepsEntry, collectInternalF_succ_eq]
      split
      · exact Finset.Subset.refl _
      · exact Finset.sdiff_subset
    rw [hcov]
    exact hfold X (hmin hX)

/-- C2: the cached `min_deps` of any file in any acyclic import graph is
transitively reduced — no member is reachable through the transitive
min-dep chain of another member — including when the pruning step was
skipped by the fast path (empty prune set or a single dependency). -/
theorem min_deps_transitive_reduction (g : Nat → FileDecl)
    (hacyc : AcyclicGraph g) (i X Y : Nat)
    (hX : X ∈ (minDepsEntry g i).min_deps)
    (hY : Y ∈ (minDepsEntry g i).min_deps)
    (hXY : X ≠ Y) : Y ∉ minChain g X := by
  induction i using Nat.strong_induction_on generalizing X Y with
  | _ i ih =>
    have hmin : (minDepsEntry g i).min_deps =
        if (depsFold g i (g i).deps).to_prune = ∅ ∨ (g i).deps.length = 1 then
          (depsFold g i (g i).deps).min_deps
        else (depsFold g i (g i).deps).min_deps \ (depsFold g i (g i).deps).to_prune := by
      simp only [minDepsEntry, collectInternalF_succ_eq]
      split <;> simp_all
    have hfold := depsFold_minChain_sub g hacyc i
      (fun d hdi => minChain_subset_cov g hacyc d) (g i).deps (fun d hd => hacyc i d hd)
    rw [hmin] at hX hY
    by_cases hcond : (depsFold g i (g i).deps).to_prune = ∅ ∨ (g i).deps.length = 1
    · rw [if_pos hcond] at hX hY
      rcases hcond with hprune | hlen
      · -- prune set empty: the covered collector is empty too, and the
        -- chain of X lives inside it.
        have hcovempty : (depsFold g i (g i).deps).covered_deps = ∅ := by
          rw [← depsFold_prune_eq_cov, hprune]
        intro hmem
        have := hfold X hX hmem
        rw [hcovempty] at this
        simp at this
      · -- exactly one dependency
        rcases List.length_eq_one.mp hlen with ⟨d, hd⟩
        have hdi : d < i := hacyc i d (by rw [hd]; simp)
        have hc : depsFold g i (g i).deps =
            collectStep (minDepsEntry g d) d ⟨∅, ∅, ∅⟩ := by
          rw [hd]
          unfold depsFold
          simp [stepf, collectInternalF_eq_minDepsEntry g hacyc hdi]
        rw [hc] at hX hY
        rcases hext : (minDepsEntry g d).has_extensions with _ | _
        · rw [collectStep_eq_false hext] at hX hY
          simp only [Finset.empty_union] at hX hY
          exact ih d hdi X Y hX hY hXY
        · rw [collectStep_eq_true hext] at hX hY
          simp only [Finset.mem_insert, Finset.not_mem_empty, or_false] at hX hY
          exact absurd (hX.trans hY.symm) hXY
    · rw [if_neg hcond] at hX hY
      have hXmin : X ∈ (depsFold g i (g i).deps).min_deps := (Finset.mem_sdiff.mp hX).1
      have hYnp : Y ∉ (depsFold g i (g i).deps).to_prune := (Finset.mem_sdiff.mp hY).2
      intro hmem
      have hYcov : Y ∈ (depsFold g i (g i).deps).covered_deps := hfold X hXmin hmem
      rw [← depsFold_prune_eq_cov] at hYcov
      exact hYnp hYcov

/-- C1 counterexample: in the scenario graph (`A` imports `B` and `C`,
`B` declares an extension, `C` imports `B` and declares none), the
closure entry for `A` does not satisfy
`min_deps = {B} ∧ covered_deps ⊇ {B}`: the covered set of `A` is empty
(`B` only ever enters the min collector; only `B`'s own `min_deps` and
`covered_deps` — both empty — are folded into `A`'s covered set). -/
theorem extension_closure_scenario_counterexample :
    ¬ ((minDepsEntry gC1 2).min_deps = {0} ∧
        {0} ⊆ (minDepsEntry gC1 2).covered_deps) := by decide

/-- C1 amended: in the scenario graph, the closure entry for `A` has
`min_deps = {B}` and `covered_deps = ∅` (in particular `B` is carried in
`min_deps`, not in `covered_deps`).  The first two conjuncts pin the
scenario: `B` has extensions and `C` has none of its own. -/
theorem extension_closure_scenario_amended :
    FileContainsExtensions (gC1 0) = true ∧
      FileContainsExtensions (gC1 1) = false ∧
      (minDepsEntry gC1 2).min_deps = {0} ∧
      (minDepsEntry gC1 2).covered_deps = ∅ := by decide

theorem gTwoRoots_acyclic : AcyclicGraph gTwoRoots := by
  intro i d hd
  match i with
  | 0 => simp [gTwoRoots] at hd
  | 1 => simp [gTwoRoots] at hd
  | 2 =>
    simp [gTwoRoots] at hd
    omega
  | n + 3 => simp [gTwoRoots] at hd

/-- Witness for C2 at a concrete graph: files 0 and 1 are both members
of the min set of file 2, and 1 is not in the transitive min-dep chain
of 0. -/
theorem min_deps_transitive_reduction_witness : 1 ∉ minChain gTwoRoots 0 :=
  min_deps_transitive_reduction gTwoRoots gTwoRoots_acyclic 2 0 1
    (by decide) (by decide) (by decide)

/-- Two lists that are permutations of each other and both sorted by a
relation that is antisymmetric on their members are equal. -/
theorem eq_of_perm_of_sorted_of_anti {α : Type} {r : α → α → Prop}
    {l₁ l₂ : List α} (hp : l₁.Perm l₂) (hs₁ : l₁.Sorted r) (hs₂ : l₂.Sorted r)
    (hanti : ∀ a ∈ l₁, ∀ b ∈ l₁, r a b → r b a → a = b) : l₁ = l₂ := by
  induction l₁ generalizing l₂ with
  | nil => exact hp.nil_eq
  | cons a t₁ ih =>
    cases l₂ with
    | nil =>
      have h0 := hp.symm.nil_eq
      exact absurd h0 (by simp)
    | cons b t₂ =>
      have hab : a = b := by
        by_cases hne : a = b
        · exact hne
        · have hbmem : b ∈ a :: t₁ := hp.mem_iff.mpr (List.mem_cons_self b t₂)
          have hamem : a ∈ b :: t₂ := hp.mem_iff.mp (List.mem_cons_self a t₁)
          have hb₁ : b ∈ t₁ := by
            rcases List.mem_cons.mp hbmem with h | h
            · exact absurd h.symm hne
            · exact h
          have ha₂ : a ∈ t₂ := by
            rcases List.mem_cons.mp hamem with h | h
            · exact absurd h hne
            · exact h
          have hrab : r a b := List.rel_of_sorted_cons hs₁ b hb₁
          have hrba : r b a := List.rel_of_sorted_cons hs₂ a ha₂
          exact hanti a (List.mem_cons_self a t₁) b hbmem hrab hrba
      subst hab
      have ht := ih hp.cons_inv hs₁.of_cons hs₂.of_cons
        (fun x hx y hy => hanti x (List.mem_cons_of_mem a hx) y (List.mem_cons_of_mem a hy))
      rw [ht]

/-- C9: the consumer-facing list equals the cached min set ordered by
ascending file name; whenever file names are injective on the min set,
any enumeration order `l` of the internal hash set sorts to the same
list, so iteration order never leaks into the output.  The output is
sorted by name and contains exactly the members of the cached min set. -/
theorem collect_min_deps_deterministic (g : Nat → FileDecl) (i : Nat)
    (hinj : ∀ a ∈ (minDepsEntry g i).min_deps, ∀ b ∈ (minDepsEntry g i).min_deps,
      (g a).name = (g b).name → a = b)
    (l : List Nat)
    (hl : l.Perm ((minDepsEntry g i).min_deps.sort (· ≤ ·))) :
    List.insertionSort (FileDescriptorsOrderedByName g) l =
        CollectMinimalFileDepsContainingExtensions g i ∧
      List.Sorted (FileDescriptorsOrderedByName g)
        (CollectMinimalFileDepsContainingExtensions g i) ∧
      ∀ x, x ∈ CollectMinimalFileDepsContainingExtensions g i ↔
        x ∈ (minDepsEntry g i).min_deps := by
  have hsorted2 : (CollectMinimalFileDepsContainingExtensions g i).Sorted
      (FileDescriptorsOrderedByName g) :=
    List.sorted_insertionSort (FileDescriptorsOrderedByName g) _
  have hmem : ∀ x, x ∈ CollectMinimalFileDepsContainingExtensions g i ↔
      x ∈ (minDepsEntry g i).min_deps := by
    intro x
    unfold CollectMinimalFileDepsContainingExtensions
    rw [List.mem_insertionSort]
    exact Finset.mem_sort _
  refine ⟨?_, hsorted2, hmem⟩
  have hperm : (List.insertionSort (FileDescriptorsOrderedByName g) l).Perm
      (CollectMinimalFileDepsContainingExtensions g i) := by
    have h1 := List.perm_insertionSort (FileDescriptorsOrderedByName g) l
    have h2 := List.perm_insertionSort (FileDescriptorsOrderedByName g)
      ((minDepsEntry g i).min_deps.sort (· ≤ ·))
    exact (h1.trans hl).trans h2.symm
  have hsorted1 := List.sorted_insertionSort (FileDescriptorsOrderedByName g) l
  refine eq_of_perm_of_sorted_of_anti hperm hsorted1 hsorted2 ?_
  intro a ha b hb hrab hrba
  have hmm : ∀ x, x ∈ List.insertionSort (FileDescriptorsOrderedByName g) l →
      x ∈ (minDepsEntry g i).min_deps := by
    intro x hx
    have hx1 : x ∈ l := (List.mem_insertionSort _).mp hx
    exact (Finset.mem_sort _).mp (hl.mem_iff.mp hx1)
  exact hinj a (hmm a ha) b (hmm b hb) (le_antisymm hrab hrba)

/-- Witness for C9 at a concrete graph, with the singleton min set of
the C1 scenario graph as the enumeration. -/
theorem collect_min_deps_deterministic_witness :
    List.insertionSort (FileDescriptorsOrderedByName gC1) [0] =
      CollectMinimalFileDepsContainingExtensions gC1 2 := by
  have hset : (minDepsEntry gC1 2).min_deps = {0} := by decide
  refine (collect_min_deps_deterministic gC1 2 ?_ [0] ?_).1
  · intro a ha b hb _
    rw [hset] at ha hb
    rw [Finset.mem_singleton] at ha hb
    rw [ha, hb]
  · rw [hset, Finset.sort_singleton]

theorem anyNested_eq_true_iff (l : List Descriptor) :
    anyNestedContainsExtensions l = true ↔
      ∃ m ∈ l, MessageContainsExtensions m = true := by
  induction l with
  | nil => simp [anyNestedContainsExtensions]
  | cons m ms ih =>
    simp only [anyNestedContainsExtensions, Bool.or_eq_true, ih, List.mem_cons]
    constructor
    · rintro (h | ⟨x, hx, hh⟩)
      · exact ⟨m, Or.inl rfl, h⟩
      · exact ⟨x, Or.inr hx, hh⟩
    · rintro ⟨x, hx | hx, hh⟩
      · exact Or.inl (hx ▸ hh)
      · exact Or.inr ⟨x, hx, hh⟩

theorem deep_of_mce : ∀ m, MessageContainsExtensions m = true → DeclaresExtensionDeep m
  | .mk ec nested => by
    intro h
    simp only [MessageContainsExtensions, Bool.or_eq_true, decide_eq_true_eq] at h
    rcases h with h | h
    · exact .here ec nested h
    · rcases (anyNested_eq_true_iff nested).mp h with ⟨m, hm, hmce⟩
      exact .nest ec nested m hm (deep_of_mce m hmce)
termination_by m => sizeOf m
decreasing_by
  have h1 := List.sizeOf_lt_of_mem hm
  simp only [Descriptor.mk.sizeOf_spec]
  omega

theorem mce_of_deep {m : Descriptor} (h : DeclaresExtensionDeep m) :
    MessageContainsExtensions m = true := by
  induction h with
  | here ec nested h =>
    simp [MessageContainsExtensions, h]
  | nest ec nested m hm hdeep ih =>
    simp only [MessageContainsExtensions, Bool.or_eq_true]
    exact Or.inr ((anyNested_eq_true_iff nested).mpr ⟨m, hm, ih⟩)

theorem minDepsEntry_has_extensions (g : Nat → FileDecl) (i : Nat) :
    (minDepsEntry g i).has_extensions = FileContainsExtensions (g i) := by
  simp only [minDepsEntry, collectInternalF_succ_eq]
  split <;> rfl

/-- C10: the `has_extensions` flag cached in a file's closure entry is
true exactly when the file declares a top-level extension or some
message of the file, at any nesting depth, declares one. -/
theorem has_extensions_iff_declares (g : Nat → FileDecl) (i : Nat) :
    (minDepsEntry g i).has_extensions = true ↔
      0 < (g i).extension_count ∨
        ∃ m ∈ (g i).message_type, DeclaresExtensionDeep m := by
  rw [minDepsEntry_has_extensions]
  simp only [FileContainsExtensions, Bool.or_eq_true, decide_eq_true_eq,
    anyNested_eq_true_iff]
  constructor
  · rintro (h | ⟨m, hm, hh⟩)
    · exact Or.inl h
    · exact Or.inr ⟨m, hm, deep_of_mce m hh⟩
  · rintro (h | ⟨m, hm, hh⟩)
    · exact Or.inl h
    · exact Or.inr ⟨m, hm, mce_of_deep hh⟩

/-- Boolean `any` over a list only depends on the function's values on
the members. -/
theorem any_ext {α : Type} (l : List α) (f1 f2 : α → Bool)
    (h : ∀ x ∈ l, f1 x = f2 x) : l.any f1 = l.any f2 := by
  induction l with
  | nil => rfl
  | cons a t ih =>
    simp only [List.any_cons]
    rw [h a (by simp), ih (fun x hx => h x (by simp [hx]))]

/-- A relation that holds everywhere is pairwise on every list. -/
theorem pairwise_of_rel {α : Type} {R : α → α → Prop} (h : ∀ a b, R a b) :
    ∀ l : List α, l.Pairwise R
  | [] => List.Pairwise.nil
  | a :: t => List.Pairwise.cons (fun b _ => h a b) (pairwise_of_rel h t)

/-- Summing a `c`-or-zero indicator over a list counts the matches. -/
theorem sum_map_ite {α : Type} (l : List α) (q : α → Bool) (c : Nat) :
    (l.map fun x => if q x then c else 0).sum = c * l.countP q := by
  induction l with
  | nil => simp
  | cons a t ih =>
    by_cases h : q a = true
    · simp only [List.map_cons, List.sum_cons, List.countP_cons, h, if_true, ih]
      ring
    · have hf : q a = false := by revert h; cases q a <;> simp
      simp only [List.map_cons, List.sum_cons, List.countP_cons, hf, ih]
      simp

/-- C3: for every message and every packable repeated scalar field, the
dispatch table contains exactly two entries for that field — one whose
tag combines the field number with the field's natural (per-element)
wire type and the per-element parse action, and one whose tag combines
the field number with the length-delimited wire type and the packed
parse action.  The table builder never reads the field's declared
`packed_option`, so the quantification covers both settings. -/
theorem dispatch_duality (msg : MessageSpec) (f : JField)
    (hf : f ∈ msg.fields)
    (hnodup : (msg.fields.map JField.number).Nodup)
    (hp : f.is_packable = true) :
    (GenerateBuilderFieldParsingCases msg).countP
        (fun e => actionFieldNumber e.action == f.number) = 2 ∧
      (⟨MakeTag f.number (WireTypeForFieldType f.ftype),
          ParseAction.parseField f⟩ : DispatchEntry) ∈
        GenerateBuilderFieldParsingCases msg ∧
      (⟨MakeTag f.number WIRETYPE_LENGTH_DELIMITED,
          ParseAction.parsePacked f⟩ : DispatchEntry) ∈
        GenerateBuilderFieldParsingCases msg := by
  have hsortmem : f ∈ SortFieldsByNumber msg.fields := by
    unfold SortFieldsByNumber
    rw [List.mem_insertionSort]
    exact hf
  refine ⟨?_, ?_, ?_⟩
  · unfold GenerateBuilderFieldParsingCases
    rw [List.countP_flatMap]
    have hcongr : ∀ x ∈ SortFieldsByNumber msg.fields,
        ((GenerateBuilderFieldParsingCase x ::
            (if x.is_packable then [GenerateBuilderPackedFieldParsingCase x]
             else [])).countP
          (fun e => actionFieldNumber e.action == f.number))
          = if x.number == f.number then 2 else 0 := by
      intro x hx
      have hxmem : x ∈ msg.fields := by
        unfold SortFieldsByNumber at hx
        rw [List.mem_insertionSort] at hx
        exact hx
      by_cases hnum : x.number = f.number
      · have hxf : x = f := List.inj_on_of_nodup_map hnodup hxmem hf hnum
        subst hxf
        simp [hp, GenerateBuilderFieldParsingCase,
          GenerateBuilderPackedFieldParsingCase, actionFieldNumber,
          List.countP_cons]
      · rcases hxp : x.is_packable with _ | _ <;>
          simp [GenerateBuilderFieldParsingCase,
            GenerateBuilderPackedFieldParsingCase, actionFieldNumber,
            List.countP_cons, hxp, hnum]
    simp only [Function.comp_def]
    rw [List.map_congr_left hcongr, sum_map_ite]
    have hperm : (SortFieldsByNumber msg.fields).Perm msg.fields :=
      List.perm_insertionSort _ _
    rw [hperm.countP_eq]
    have hcount1 : msg.fields.countP (fun x => x.number == f.number) = 1 := by
      have h1 : (msg.fields.map JField.number).countP (fun n => n == f.number)
          = msg.fields.countP (fun x => x.number == f.number) := by
        rw [List.countP_map]
        rfl
      have h2 : (msg.fields.map JField.number).count f.number = 1 :=
        List.count_eq_one_of_mem hnodup (List.mem_map_of_mem JField.number hf)
      rw [← h1]
      rw [List.count] at h2
      exact h2
    rw [hcount1]
  · unfold GenerateBuilderFieldParsingCases
    rw [List.mem_flatMap]
    exact ⟨f, hsortmem, by simp [GenerateBuilderFieldParsingCase]⟩
  · unfold GenerateBuilderFieldParsingCases
    rw [List.mem_flatMap]
    refine ⟨f, hsortmem, ?_⟩
    simp [hp, GenerateBuilderPackedFieldParsingCase]

/-- Witness for C3: the scenario message's `tags` field gets exactly two
dispatch entries. -/
theorem dispatch_duality_witness :
    (GenerateBuilderFieldParsingCases msgScenario).countP
        (fun e => actionFieldNumber e.action == fTags.number) = 2 :=
  (dispatch_duality msgScenario fTags (by decide) (by decide) (by decide)).1

/-- C4: in the decode loop emitted for any message, tag 0 ends the loop
successfully; a tag absent from the dispatch table is handed to the
generic unknown-field handler, and a non-continuing handler result (an
end-of-group marker) also ends the loop successfully instead of raising
an error. -/
theorem decode_loop_policy {σ ε : Type} (msg : MessageSpec)
    (handler : Nat → σ → σ × Bool) (fieldAction : ParseAction → σ → Except ε σ)
    (rest : List Nat) (s : σ) (t : Nat)
    (hunknown : ∀ e ∈ GenerateBuilderFieldParsingCases msg, e.tag ≠ t)
    (ht : t ≠ 0) :
    decodeLoop (GenerateBuilderFieldParsingCases msg) handler fieldAction
        (0 :: rest) s = Except.ok s ∧
      decodeLoop (GenerateBuilderFieldParsingCases msg) handler fieldAction
          (t :: rest) s =
        (if (handler t s).2 then
          decodeLoop (GenerateBuilderFieldParsingCases msg) handler fieldAction
            rest (handler t s).1
        else Except.ok (handler t s).1) ∧
      ((handler t s).2 = false →
        decodeLoop (GenerateBuilderFieldParsingCases msg) handler fieldAction
            (t :: rest) s = Except.ok (handler t s).1) := by
  have hnone : lookupTag (GenerateBuilderFieldParsingCases msg) t = none := by
    unfold lookupTag
    rw [List.find?_eq_none.mpr]
    · rfl
    · intro e he
      simp only [beq_iff_eq]
      exact hunknown e he
  refine ⟨by simp [decodeLoop], ?_, ?_⟩
  · simp [decodeLoop, ht, hnone]
  · intro hstop
    simp [decodeLoop, ht, hnone, hstop]

/-- Witness for C4: an unknown tag with a non-continuing handler ends
the scenario message's decode loop successfully. -/
theorem decode_loop_policy_witness :
    decodeLoop (GenerateBuilderFieldParsingCases msgScenario) unknownHandlerW
        fieldActionW (999 :: []) 5 = Except.ok 1004 := by
  have h := (decode_loop_policy msgScenario unknownHandlerW fieldActionW [] 5 999
    (by decide) (by decide)).2.2 rfl
  simpa [unknownHandlerW] using h

/-- C5: merging a source that the default test recognizes as the type's
canonical empty value into any destination is a guaranteed no-op: the
guard returns before any merge action runs, so the result is the
destination unchanged for every (arbitrary, even destructive) merge
capability. -/
theorem merge_default_noop {σ : Type} (msg : MessageSpec)
    (isDefault : σ → Bool) (apply : MergeAction → σ → σ → σ)
    (dest source : σ) (hsrc : isDefault source = true) :
    mergeFrom msg isDefault apply dest source = dest := by
  simp [mergeFrom, hsrc]

/-- Witness for C5: a destination-bumping merge capability still leaves
the destination untouched when the source is default. -/
theorem merge_default_noop_witness :
    mergeFrom msgScenario isZeroState bumpMerge 7 0 = 7 :=
  merge_default_noop msgScenario isZeroState bumpMerge 7 0 (by decide)

/-- The rank of every action in a mapped field block is 0. -/
theorem rank_of_mem_map_field {a : MergeAction} {l : List JField}
    (h : a ∈ l.map MergeAction.field) : mergeActionRank a = 0 := by
  rcases List.mem_map.mp h with ⟨x, _, rfl⟩
  rfl

/-- The rank of every action in a mapped oneof block is 1. -/
theorem rank_of_mem_map_oneof {a : MergeAction} {l : List Nat}
    (h : a ∈ l.map MergeAction.oneof) : mergeActionRank a = 1 := by
  rcases List.mem_map.mp h with ⟨x, _, rfl⟩
  rfl

theorem filterMap_field_map_field (l : List JField) :
    (l.map MergeAction.field).filterMap mergeFieldOf = l := by
  induction l with
  | nil => rfl
  | cons a t ih => simp [mergeFieldOf, ih]

theorem filterMap_oneof_map_oneof (l : List Nat) :
    (l.map MergeAction.oneof).filterMap mergeOneofOf = l := by
  induction l with
  | nil => rfl
  | cons a t ih => simp [mergeOneofOf, ih]

theorem filterMap_field_map_oneof (l : List Nat) :
    (l.map MergeAction.oneof).filterMap mergeFieldOf = [] := by
  induction l with
  | nil => rfl
  | cons a t ih => simp [mergeFieldOf, ih]

theorem filterMap_oneof_map_field (l : List JField) :
    (l.map MergeAction.field).filterMap mergeOneofOf = [] := by
  induction l with
  | nil => rfl
  | cons a t ih => simp [mergeOneofOf, ih]

/-- C6: the emitted merge sequence performs the non-oneof field merges
in declaration order, then the oneof merges, then — exactly when the
message has extension ranges — the extension delegation, and the
unknown-field concatenation last: the field actions of the sequence are
the declared non-oneof fields in order, the oneof actions are the
declared oneofs, the extension action occurs iff extension ranges are
present, the final action is the unknown-field concatenation, and the
sequence is monotone in the phase order
field < oneof < extensions < unknowns. -/
theorem merge_sequence_order (msg : MessageSpec) :
    (mergeActionSequence msg).filterMap mergeFieldOf
        = msg.fields.filter (fun f => !f.isOneofMember) ∧
      (mergeActionSequence msg).filterMap mergeOneofOf = msg.oneofs ∧
      (MergeAction.extensions ∈ mergeActionSequence msg ↔
        0 < msg.extension_range_count) ∧
      (mergeActionSequence msg).getLast? = some MergeAction.unknowns ∧
      (mergeActionSequence msg).Pairwise
        (fun a b => mergeActionRank a ≤ mergeActionRank b) := by
  refine ⟨?_, ?_, ?_, ?_, ?_⟩
  · unfold mergeActionSequence
    rw [List.filterMap_append, List.filterMap_append, List.filterMap_append]
    rw [filterMap_field_map_field, filterMap_field_map_oneof]
    have hext : (if 0 < msg.extension_range_count then [MergeAction.extensions]
        else []).filterMap mergeFieldOf = [] := by
      split <;> rfl
    rw [hext]
    simp [mergeFieldOf]
  · unfold mergeActionSequence
    rw [List.filterMap_append, List.filterMap_append, List.filterMap_append]
    rw [filterMap_oneof_map_oneof, filterMap_oneof_map_field]
    have hext : (if 0 < msg.extension_range_count then [MergeAction.extensions]
        else []).filterMap mergeOneofOf = [] := by
      split <;> rfl
    rw [hext]
    simp [mergeOneofOf]
  · unfold mergeActionSequence
    by_cases h : 0 < msg.extension_range_count <;>
      simp [h, List.mem_append, List.mem_map]
  · unfold mergeActionSequence
    exact List.getLast?_concat _
  · unfold mergeActionSequence
    rw [List.pairwise_append]
    refine ⟨?_, ?_, ?_⟩
    · rw [List.pairwise_append]
      refine ⟨?_, ?_, ?_⟩
      · rw [List.pairwise_append]
        refine ⟨?_, ?_, ?_⟩
        · exact List.pairwise_map.mpr
            (pairwise_of_rel (fun a b => by simp [mergeActionRank]) _)
        · exact List.pairwise_map.mpr
            (pairwise_of_rel (fun a b => by simp [mergeActionRank]) _)
        · intro a ha b hb
          rw [rank_of_mem_map_field ha, rank_of_mem_map_oneof hb]
          omega
      · split <;> simp
      · intro a ha b hb
        have hb2 : b = MergeAction.extensions := by
          revert hb
          split <;> simp_all
        subst hb2
        rcases List.mem_append.mp ha with ha | ha
        · rw [rank_of_mem_map_field ha]
          simp [mergeActionRank]
        · rw [rank_of_mem_map_oneof ha]
          simp [mergeActionRank]
    · simp
    · intro a ha b hb
      have hb2 : b = MergeAction.unknowns := by simpa using hb
      subst hb2
      rcases a <;> simp [mergeActionRank]

/-- C7: the builder-side and message-side bit-field word counts are the
least word counts covering that side's total presence-bit count at 32
bits per word (the integer formula `(bits + 31) / 32` is the ceiling of
`bits / 32`), each side computed only from its own per-field bit counts,
and the emitted bit-field words are numbered 0, 1, ... in allocation
order. -/
theorem bit_word_counts (msg : MessageSpec) :
    IsLeast {n : Nat | totalBuilderBits msg ≤ 32 * n} (totalBuilderInts msg) ∧
      IsLeast {n : Nat | totalMessageBits msg ≤ 32 * n} (totalMessageInts msg) ∧
      (∀ msg2 : MessageSpec,
        msg2.fields.map JField.bitsBuilder = msg.fields.map JField.bitsBuilder →
          totalBuilderInts msg2 = totalBuilderInts msg) ∧
      (∀ msg2 : MessageSpec,
        msg2.fields.map JField.bitsMessage = msg.fields.map JField.bitsMessage →
          totalMessageInts msg2 = totalMessageInts msg) ∧
      (builderBitFieldDecls msg).length = totalBuilderInts msg ∧
      (∀ k, ∀ hk : k < (builderBitFieldDecls msg).length,
        (builderBitFieldDecls msg).get ⟨k, hk⟩ = k) := by
  refine ⟨⟨?_, ?_⟩, ⟨?_, ?_⟩, ?_, ?_, ?_, ?_⟩
  · show totalBuilderBits msg ≤ 32 * totalBuilderInts msg
    unfold totalBuilderInts
    omega
  · intro n hn
    have hn2 : totalBuilderBits msg ≤ 32 * n := hn
    unfold totalBuilderInts
    omega
  · show totalMessageBits msg ≤ 32 * totalMessageInts msg
    unfold totalMessageInts
    omega
  · intro n hn
    have hn2 : totalMessageBits msg ≤ 32 * n := hn
    unfold totalMessageInts
    omega
  · intro msg2 h
    unfold totalBuilderInts totalBuilderBits
    rw [h]
  · intro msg2 h
    unfold totalMessageInts totalMessageBits
    rw [h]
  · simp [builderBitFieldDecls]
  · intro k hk
    simp [builderBitFieldDecls]

/-- Witness for C7 at the scenario message (3 builder bits, one word). -/
theorem bit_word_counts_witness :
    totalBuilderBits msgScenario ≤ 32 * totalBuilderInts msgScenario :=
  (bit_word_counts msgScenario).1.1

/-- With enough fuel, the fuel argument of the may-contain-required
oracle does not matter on an acyclic type graph. -/
theorem hasRequiredFieldsF_fuel_irrel (T : Nat → MessageSpec)
    (hT : TypeAcyclic T) :
    ∀ i a b, i < a → i < b →
      hasRequiredFieldsF T a i = hasRequiredFieldsF T b i := by
  intro i
  induction i using Nat.strong_induction_on with
  | _ i ih =>
    intro a b ha hb
    match a, b with
    | a + 1, b + 1 =>
      simp only [hasRequiredFieldsF]
      refine congrArg (fun x => decide (0 < (T i).extension_range_count) || x) ?_
      refine any_ext _ _ _ ?_
      intro f hf
      refine congrArg (fun x => (f.label == Label.required) || x) ?_
      cases hft : fieldMessageType f with
      | none => rfl
      | some t =>
        have hti : t < i := hT i f hf t hft
        exact ih t hti a b (by omega) (by omega)

theorem hasRequiredFieldsF_eq (T : Nat → MessageSpec) (hT : TypeAcyclic T)
    {fuel i : Nat} (h : i < fuel) :
    hasRequiredFieldsF T fuel i = HasRequiredFields T i :=
  hasRequiredFieldsF_fuel_irrel T hT i fuel (i + 1) h (by omega)

/-- A recursion step for `f` can only come from the per-field block of
`f` itself, and only when `f`'s message type may transitively contain
required fields. -/
theorem isInitFieldSteps_recurse {T : Nat → MessageSpec} {x f : JField}
    {s : CheckStep} (hs : s ∈ isInitFieldSteps T x) (hrec : recursesInto s f) :
    x = f ∧ ∃ t, fieldMessageType x = some t ∧ HasRequiredFields T t = true := by
  unfold recursesInto at hrec
  unfold isInitFieldSteps at hs
  split at hs
  · rename_i t hmt
    split at hs
    · rename_i htrue
      refine ⟨?_, t, hmt, htrue⟩
      split at hs
      · simp only [List.mem_singleton] at hs
        subst hs
        rcases hrec with h | h | h | h <;> simp_all
      · simp only [List.mem_singleton] at hs
        subst hs
        rcases hrec with h | h | h | h <;> simp_all
      · split at hs
        · simp only [List.mem_singleton] at hs
          subst hs
          rcases hrec with h | h | h | h <;> simp_all
        · simp only [List.mem_singleton] at hs
          subst hs
          rcases hrec with h | h | h | h <;> simp_all
    · simp at hs
  · simp at hs

/-- C8: the validation tree never recurses into a field whose message
type is statically known (by the transitive analysis) not to need the
check; and a message whose own oracle is negative — no required fields
or extension ranges anywhere in its reachable type graph — produces an
empty validation tree. -/
theorem validator_pruning (T : Nat → MessageSpec) (hT : TypeAcyclic T)
    (i : Nat) :
    (∀ f t, fieldMessageType f = some t → HasRequiredFields T t = false →
      ∀ s ∈ GenerateIsInitialized T (T i), ¬ recursesInto s f) ∧
    (HasRequiredFields T i = false → GenerateIsInitialized T (T i) = []) := by
  constructor
  · intro f t hft hreq s hs hrec
    unfold GenerateIsInitialized at hs
    rcases List.mem_append.mp hs with hs | hs
    · rcases List.mem_append.mp hs with hs | hs
      · rcases List.mem_map.mp hs with ⟨x, _, hx⟩
        rcases hrec with h | h | h | h <;> rw [h] at hx <;> simp at hx
      · rcases List.mem_flatMap.mp hs with ⟨x, _, hx⟩
        rcases isInitFieldSteps_recurse hx hrec with ⟨rfl, t2, ht2, htrue⟩
        rw [hft] at ht2
        rw [Option.some_inj.mp ht2] at hreq
        rw [hreq] at htrue
        exact Bool.false_ne_true htrue
    · rcases hrec with h | h | h | h <;> rw [h] at hs <;> revert hs <;>
        split <;> simp
  · intro hreq
    have hcomp : (0 < (T i).extension_range_count → False) ∧
        ∀ f ∈ (T i).fields, (f.label == Label.required) = false ∧
          (match fieldMessageType f with
            | some t => hasRequiredFieldsF T i t
            | none => false) = false := by
      unfold HasRequiredFields at hreq
      simp only [hasRequiredFieldsF, Bool.or_eq_false_iff,
        decide_eq_false_iff_not, List.any_eq_false] at hreq
      refine ⟨hreq.1, ?_⟩
      intro f hf
      have := hreq.2 f hf
      exact ⟨by simp_all, by simp_all⟩
    unfold GenerateIsInitialized
    have h1 : ((T i).fields.filter fun f => f.label == Label.required) = [] := by
      refine List.filter_eq_nil_iff.mpr ?_
      intro f hf
      simp [(hcomp.2 f hf).1]
    have h2 : ((T i).fields.flatMap (isInitFieldSteps T)) = [] := by
      refine List.flatMap_eq_nil_iff.mpr ?_
      intro f hf
      have hmatch := (hcomp.2 f hf).2
      unfold isInitFieldSteps
      rcases hmt : fieldMessageType f with _ | t
      · simp [hmt]
      · simp only [hmt] at hmatch ⊢
        have hti : t < i := hT i f hf t hmt
        rw [hasRequiredFieldsF_eq T hT hti] at hmatch
        rw [if_neg (by simp [hmatch])]
    have h3 : (if 0 < (T i).extension_range_count
        then [CheckStep.checkExtensions] else []) = [] := by
      rw [if_neg hcomp.1]
    rw [h1, h2, h3]
    rfl

/-- The witness type table is acyclic. -/
theorem TW_acyclic : TypeAcyclic TW := by
  intro i f hf t hft
  match i with
  | 0 => simp [TW, msgLeaf] at hf
  | 1 =>
    simp only [TW, msgParent, List.mem_singleton] at hf
    subst hf
    simp [fieldMessageType] at hft
    omega
  | n + 2 => simp [TW, msgLeaf] at hf

/-- Witness for C8: the parent message reaches only the empty message,
so its validation tree is empty. -/
theorem validator_pruning_witness : GenerateIsInitialized TW (TW 1) = [] :=
  (validator_pruning TW TW_acyclic 1).2 (by decide)
